import Mathlib

/-!
Shallow embedding of the numerical-integration notebook `integration.ipynb`
(PHYS 4247 midpoint-rule tutorial).  The notebook defines one function:

    def integrate_midpoint(f, a, b, n):
        x = np.linspace(a, b, num=n+1)
        dx = (b-a)/n
        integral = 0
        for j in range(n):
            xmid = (x[j] + x[j+1])/2
            integral += f(xmid)*dx
        return integral

Machine floats are modelled by an arbitrary linear ordered field (the theorems
instantiate it at `ℝ`), and Python exceptions by an explicit error type:
`np.linspace(a, b, num)` raises `ValueError` when `num = n+1` is negative
(with `num = 0` it returns an empty array and with `num = 1` the single-element
array `[a]`), the division `(b-a)/n` raises `ZeroDivisionError` when `n = 0`,
an out-of-range index `x[j]` raises `IndexError`, and an exception raised by
the integrand `f` itself propagates out of the loop unchanged.  `range(n)` is
empty for `n ≤ 0`.
-/

namespace Phys4247

/-- Python exceptions that can escape `integrate_midpoint`: `ValueError`
(from `np.linspace` on a negative sample count), `ZeroDivisionError` (from
`(b-a)/n` at `n = 0`), `IndexError` (out-of-range list index), or an
exception of type `ε` raised by the integrand itself. -/
inductive PyError (ε : Type) : Type where
  | valueError : PyError ε
  | zeroDivisionError : PyError ε
  | indexError : PyError ε
  | integrandError : ε → PyError ε

/-- Indexing `x[i]` for a non-negative index: the element when `i` is in
range, `IndexError` otherwise.  (The loop of `integrate_midpoint` only ever
produces indices `0 ≤ j`, `j+1`, so negative indexing never arises.) -/
def getF (ε : Type) {K : Type} : List K → ℕ → Except (PyError ε) K
  | [], _ => Except.error PyError.indexError
  | v :: _, 0 => Except.ok v
  | _ :: xs, i + 1 => getF ε xs i

/-- `np.linspace a b num` (with `endpoint=True`, the default): `num` evenly
spaced samples `a + j·(b-a)/(num-1)`, `j = 0, …, num-1`.  For `num = 1` numpy
returns the single sample `[a]` (here the step divides by zero, and division
by zero is `0` in a field, giving the same list `[a]`); for `num = 0` the
empty list.  Over a field the closed-form sample equals numpy's exact-endpoint
adjustment `x[num-1] = b`. -/
def linspace {K : Type} [LinearOrderedField K] (a b : K) (num : ℕ) : List K :=
  (List.range num).map (fun (j : ℕ) => a + (j : K) * ((b - a) / ((num - 1 : ℕ) : K)))

/-- Sequencing under Python exception semantics: if evaluating the first
expression raised, the raise propagates; otherwise execution continues with
its value. -/
def pyBind {K ε : Type} (r : Except (PyError ε) K)
    (g : K → Except (PyError ε) K) : Except (PyError ε) K :=
  match r with
  | Except.error e => Except.error e
  | Except.ok v => g v

/-- An exception raised by the integrand propagates out of the integrator
unchanged (wrapped into the integrator's exception universe). -/
def liftExc {K ε : Type} : Except ε K → Except (PyError ε) K
  | Except.error e => Except.error (PyError.integrandError e)
  | Except.ok v => Except.ok v

@[simp] theorem pyBind_ok {K ε : Type} (v : K)
    (g : K → Except (PyError ε) K) : pyBind (Except.ok v) g = g v := rfl

@[simp] theorem pyBind_error {K ε : Type} (e : PyError ε)
    (g : K → Except (PyError ε) K) :
    pyBind (Except.error e) g = Except.error e := rfl

@[simp] theorem liftExc_ok {K ε : Type} (v : K) :
    liftExc (Except.ok v : Except ε K) = Except.ok v := rfl

@[simp] theorem liftExc_error {K ε : Type} (e : ε) :
    liftExc (Except.error e : Except ε K)
      = Except.error (PyError.integrandError e) := rfl

/-- The `for j in range(n)` loop of `integrate_midpoint`, over the list of
loop indices: reads `x[j]` and `x[j+1]`, forms the midpoint, evaluates the
integrand and accumulates `f(xmid)*dx` into `acc`, left to right. -/
def midLoop {K : Type} [LinearOrderedField K] {ε : Type} (f : K → Except ε K)
    (x : List K) (dx : K) : List ℕ → K → Except (PyError ε) K
  | [], acc => Except.ok acc
  | j :: js, acc =>
    pyBind (getF ε x j) (fun xj =>
      pyBind (getF ε x (j + 1)) (fun xj1 =>
        pyBind (liftExc (f ((xj + xj1) / 2))) (fun v =>
          midLoop f x dx js (acc + v * dx))))

/-- `integrate_midpoint` with a fallible integrand, following the source
line by line: build `x = np.linspace(a, b, num=n+1)` (ValueError when
`n+1 < 0`), compute `dx = (b-a)/n` (ZeroDivisionError when `n = 0`), then
run the accumulation loop over `range(n)` starting from `integral = 0`. -/
def integrate_midpointE {K : Type} [LinearOrderedField K] {ε : Type}
    (f : K → Except ε K) (a b : K) (n : ℤ) : Except (PyError ε) K :=
  if n + 1 < 0 then Except.error PyError.valueError
  else
    let x : List K := linspace a b (n + 1).toNat
    if n = 0 then Except.error PyError.zeroDivisionError
    else
      midLoop f x ((b - a) / (n : K)) (List.range n.toNat) 0

/-- `integrate_midpoint(f, a, b, n)` for an integrand that never raises. -/
def integrate_midpoint {K : Type} [LinearOrderedField K]
    (f : K → K) (a b : K) (n : ℤ) : Except (PyError Empty) K :=
  integrate_midpointE (fun t => Except.ok (f t)) a b n

/-- The sequence of points `xmid = (x[j] + x[j+1])/2` at which the loop body
evaluates the integrand, one per iteration, in iteration order. -/
def midTrace {K : Type} [LinearOrderedField K] (x : List K) (js : List ℕ) :
    List K :=
  js.map (fun j => (x.getD j 0 + x.getD (j + 1) 0) / 2)

/-- The evaluation points of `integrate_midpoint f a b n`: the midpoints the
loop visits, in iteration order. -/
def evalPoints {K : Type} [LinearOrderedField K] (a b : K) (n : ℤ) : List K :=
  midTrace (linspace a b (n + 1).toNat) (List.range n.toNat)

/-! ### Basic lemmas about the embedding -/

theorem getF_ok {K : Type} [LinearOrderedField K] (ε : Type) :
    ∀ (xs : List K) (i : ℕ), i < xs.length →
      getF ε xs i = Except.ok (xs.getD i 0)
  | [], i, h => absurd h (by simp)
  | v :: xs, 0, _ => rfl
  | v :: xs, i + 1, h => by
    simpa [getF] using getF_ok ε xs i (by simpa using h)

theorem linspace_length {K : Type} [LinearOrderedField K] (a b : K) (num : ℕ) :
    (linspace a b num).length = num := by
  unfold linspace
  rw [List.length_map, List.length_range]

theorem linspace_getD {K : Type} [LinearOrderedField K] (a b : K)
    {num j : ℕ} (h : j < num) :
    (linspace a b num).getD j 0 = a + (j : K) * ((b - a) / ((num - 1 : ℕ) : K)) := by
  have h1 : (List.range num)[j]? = some j := List.getElem?_range h
  unfold linspace
  rw [List.getD_eq_getElem?_getD, List.getElem?_map, h1, Option.map_some',
    Option.getD_some]

theorem listMapRangeSum {K : Type} [LinearOrderedField K] (g : ℕ → K) :
    ∀ m : ℕ, ((List.range m).map g).sum = ∑ j in Finset.range m, g j
  | 0 => by simp
  | m + 1 => by
    rw [List.range_succ, List.map_append, List.sum_append, Finset.sum_range_succ,
      listMapRangeSum g m]
    simp

theorem foldlRangeSum {K : Type} [LinearOrderedField K] (g : ℕ → K) :
    ∀ (m : ℕ) (acc : K),
      (List.range m).foldl (fun s j => s + g j) acc
        = acc + ∑ j in Finset.range m, g j
  | 0, acc => by simp
  | m + 1, acc => by
    rw [List.range_succ, List.foldl_append, foldlRangeSum g m acc,
      Finset.sum_range_succ]
    simp [add_assoc]

theorem sumRangeIdTwo {K : Type} [LinearOrderedField K] :
    ∀ m : ℕ, (2 : K) * ∑ j in Finset.range m, (j : K) = (m : K) ^ 2 - (m : K)
  | 0 => by simp
  | m + 1 => by
    rw [Finset.sum_range_succ, mul_add, sumRangeIdTwo m]
    push_cast
    ring

/-- When every index the loop visits is in range and the integrand never
raises, the loop returns `acc` plus the left-to-right sum of `f(xmid)*dx`
over the midpoint trace. -/
theorem midLoop_pure_ok {K : Type} [LinearOrderedField K] (f : K → K)
    (x : List K) (dx : K) :
    ∀ (js : List ℕ) (acc : K), (∀ j ∈ js, j + 1 < x.length) →
      midLoop (fun t => (Except.ok (f t) : Except Empty K)) x dx js acc
        = Except.ok (acc + ((midTrace x js).map (fun p => f p * dx)).sum)
  | [], acc, _ => by simp [midLoop, midTrace]
  | j :: js, acc, h => by
    have hj1 : j + 1 < x.length := h j (List.mem_cons_self j js)
    have hj : j < x.length := Nat.lt_of_succ_lt hj1
    have ih := midLoop_pure_ok f x dx js
      (acc + f ((x.getD j 0 + x.getD (j + 1) 0) / 2) * dx)
      (fun i hi => h i (List.mem_cons_of_mem j hi))
    simp only [midLoop, getF_ok Empty x j hj, getF_ok Empty x (j + 1) hj1,
      pyBind_ok, liftExc_ok]
    rw [ih]
    simp [midTrace, add_assoc]

/-- The midpoint `(x[j] + x[j+1])/2` on the linspace grid equals
`a + j·Δx + Δx/2` with `Δx = (b-a)/n`. -/
theorem linspace_mid {K : Type} [LinearOrderedField K] (a b : K) {n : ℤ}
    (hn : 1 ≤ n) {j : ℕ} (hj : j < n.toNat) :
    ((linspace a b (n + 1).toNat).getD j 0
        + (linspace a b (n + 1).toNat).getD (j + 1) 0) / 2
      = a + (j : K) * ((b - a) / (n : K)) + (b - a) / (n : K) / 2 := by
  have hnum : (n + 1).toNat = n.toNat + 1 := by omega
  have hc : ((n.toNat : ℕ) : K) = (n : K) := by
    rw [← Int.cast_natCast, Int.toNat_of_nonneg (by omega)]
  rw [hnum, linspace_getD a b (show j < n.toNat + 1 by omega),
    linspace_getD a b (show j + 1 < n.toNat + 1 by omega)]
  have hsub : (n.toNat + 1 - 1 : ℕ) = n.toNat := rfl
  rw [hsub, hc]
  push_cast
  ring

/-- For `n ≥ 1`, `integrate_midpoint` succeeds and returns the midpoint-rule
sum `∑ⱼ f(a + j·Δx + Δx/2)·Δx`, `Δx = (b-a)/n`. -/
theorem integrate_midpoint_ok {K : Type} [LinearOrderedField K] (f : K → K)
    (a b : K) {n : ℤ} (hn : 1 ≤ n) :
    integrate_midpoint f a b n
      = Except.ok (∑ j in Finset.range n.toNat,
          f (a + (j : K) * ((b - a) / (n : K)) + (b - a) / (n : K) / 2)
            * ((b - a) / (n : K))) := by
  have h0 : ¬n + 1 < 0 := by omega
  have h1 : n ≠ 0 := by omega
  have hb : ∀ j ∈ List.range n.toNat,
      j + 1 < (linspace a b (n + 1).toNat).length := by
    intro j hj
    rw [linspace_length]
    have := List.mem_range.mp hj
    omega
  rw [integrate_midpoint, integrate_midpointE]
  simp only [if_neg h0, if_neg h1]
  rw [midLoop_pure_ok f _ _ _ 0 hb]
  congr 1
  rw [midTrace, List.map_map, listMapRangeSum, zero_add]
  refine Finset.sum_congr rfl (fun j hj => ?_)
  simp only [Function.comp_apply]
  rw [linspace_mid a b hn (List.mem_range.mp hj)]

/-- Splitting a range of loop indices at index `j`. -/
theorem rangeSplit {m j : ℕ} (h : j < m) :
    List.range m
      = List.range j ++ j :: (List.range (m - (j + 1))).map ((j + 1) + ·) := by
  have h1 : m = (j + 1) + (m - (j + 1)) := by omega
  conv_lhs => rw [h1]
  rw [List.range_add, List.range_succ, List.append_assoc, List.singleton_append]

/-- Running the loop over a concatenation: the second half runs only if the
first half finished without an exception. -/
theorem midLoop_append {K : Type} [LinearOrderedField K] {ε : Type}
    (f : K → Except ε K) (x : List K) (dx : K) :
    ∀ (js₁ js₂ : List ℕ) (acc : K),
      midLoop f x dx (js₁ ++ js₂) acc
        = match midLoop f x dx js₁ acc with
          | Except.error e => Except.error e
          | Except.ok acc2 => midLoop f x dx js₂ acc2
  | [], js₂, acc => by simp [midLoop]
  | j :: js₁, js₂, acc => by
    show midLoop f x dx (j :: (js₁ ++ js₂)) acc = _
    simp only [midLoop]
    cases hg : getF ε x j with
    | error e => simp
    | ok xj =>
      cases hg1 : getF ε x (j + 1) with
      | error e => simp
      | ok xj1 =>
        cases hf : f ((xj + xj1) / 2) with
        | error e => simp [hf]
        | ok v =>
          simp only [pyBind_ok, hf, liftExc_ok]
          exact midLoop_append f x dx js₁ js₂ (acc + v * dx)

/-- If every index is in bounds and the integrand succeeds at every midpoint
of `js`, the loop finishes with some accumulator value. -/
theorem midLoop_ok_of_ok {K : Type} [LinearOrderedField K] {ε : Type}
    (f : K → Except ε K) (x : List K) (dx : K) :
    ∀ (js : List ℕ) (acc : K),
      (∀ j ∈ js, j + 1 < x.length) →
      (∀ j ∈ js, ∃ v, f ((x.getD j 0 + x.getD (j + 1) 0) / 2) = Except.ok v) →
      ∃ acc2, midLoop f x dx js acc = Except.ok acc2
  | [], acc, _, _ => ⟨acc, rfl⟩
  | j :: js, acc, hb, hf => by
    have hj1 : j + 1 < x.length := hb j (List.mem_cons_self j js)
    have hj : j < x.length := Nat.lt_of_succ_lt hj1
    obtain ⟨v, hv⟩ := hf j (List.mem_cons_self j js)
    simp only [midLoop, getF_ok ε x j hj, getF_ok ε x (j + 1) hj1, pyBind_ok,
      hv, liftExc_ok]
    exact midLoop_ok_of_ok f x dx js (acc + v * dx)
      (fun i hi => hb i (List.mem_cons_of_mem j hi))
      (fun i hi => hf i (List.mem_cons_of_mem j hi))

/-- If all indices are in bounds, the integrand succeeds at the midpoints of
indices `0, …, j-1` and raises `e` at the midpoint of index `j < n`, the whole
call raises `e` (wrapped as an integrand exception), with no partial result. -/
theorem integrate_midpointE_err {K : Type} [LinearOrderedField K] {ε : Type}
    (f : K → Except ε K) (a b : K) {n : ℤ} (hn : 1 ≤ n) {j : ℕ}
    (hj : j < n.toNat) {e : ε}
    (herr : f (a + (j : K) * ((b - a) / (n : K)) + (b - a) / (n : K) / 2)
              = Except.error e)
    (hok : ∀ i : ℕ, i < j →
      ∃ v, f (a + (i : K) * ((b - a) / (n : K)) + (b - a) / (n : K) / 2)
             = Except.ok v) :
    integrate_midpointE f a b n = Except.error (PyError.integrandError e) := by
  have h0 : ¬n + 1 < 0 := by omega
  have h1 : n ≠ 0 := by omega
  rw [integrate_midpointE]
  simp only [if_neg h0, if_neg h1]
  rw [rangeSplit hj, midLoop_append]
  have hb : ∀ i ∈ List.range j,
      i + 1 < (linspace a b (n + 1).toNat).length := by
    intro i hi
    rw [linspace_length]
    have := List.mem_range.mp hi
    omega
  have hfo : ∀ i ∈ List.range j,
      ∃ v, f (((linspace a b (n + 1).toNat).getD i 0
          + (linspace a b (n + 1).toNat).getD (i + 1) 0) / 2) = Except.ok v := by
    intro i hi
    have hij := List.mem_range.mp hi
    rw [linspace_mid a b hn (by omega)]
    exact hok i hij
  obtain ⟨acc2, hacc⟩ := midLoop_ok_of_ok f _ _ (List.range j) 0 hb hfo
  rw [hacc]
  have hjb : j < (linspace a b (n + 1).toNat).length := by
    rw [linspace_length]; omega
  have hjb1 : j + 1 < (linspace a b (n + 1).toNat).length := by
    rw [linspace_length]; omega
  simp only [midLoop, getF_ok ε _ j hjb, getF_ok ε _ (j + 1) hjb1, pyBind_ok,
    linspace_mid a b hn hj, herr, liftExc_error, pyBind_error]

/-! ### Cast helpers -/

theorem toNat_cast_eq {n : ℤ} (hn : 1 ≤ n) : ((n.toNat : ℕ) : ℝ) = (n : ℝ) := by
  rw [← Int.cast_natCast, Int.toNat_of_nonneg (by omega)]

theorem int_cast_ne_zero {n : ℤ} (hn : 1 ≤ n) : (n : ℝ) ≠ 0 := by
  exact_mod_cast (show n ≠ 0 by omega)

/-! ### Claim theorems -/

/-- C1: for every integrand `f`, real bounds `a`, `b`, and integer `n ≥ 1`,
`integrate_midpoint f a b n` returns the sum over `j = 0 .. n-1` of
`f(x_{j+1/2})·Δx` with `Δx = (b-a)/n` and `x_{j+1/2} = a + j·Δx + Δx/2`,
accumulated in ascending `j` order starting from zero (the left fold), and
this ascending accumulation equals the `Finset` sum of the same terms. -/
theorem c1_midpoint_sum_ascending (f : ℝ → ℝ) (a b : ℝ) (n : ℤ) (hn : 1 ≤ n) :
    integrate_midpoint f a b n
      = Except.ok ((List.range n.toNat).foldl
          (fun acc (j : ℕ) => acc
            + f (a + (j : ℝ) * ((b - a) / (n : ℝ)) + (b - a) / (n : ℝ) / 2)
              * ((b - a) / (n : ℝ))) 0)
    ∧ (List.range n.toNat).foldl
          (fun acc (j : ℕ) => acc
            + f (a + (j : ℝ) * ((b - a) / (n : ℝ)) + (b - a) / (n : ℝ) / 2)
              * ((b - a) / (n : ℝ))) 0
        = ∑ j in Finset.range n.toNat,
            f (a + (j : ℝ) * ((b - a) / (n : ℝ)) + (b - a) / (n : ℝ) / 2)
              * ((b - a) / (n : ℝ)) := by
  have h2 := foldlRangeSum
    (fun j => f (a + (j : ℝ) * ((b - a) / (n : ℝ)) + (b - a) / (n : ℝ) / 2)
      * ((b - a) / (n : ℝ))) n.toNat 0
  rw [zero_add] at h2
  exact ⟨(integrate_midpoint_ok f a b hn).trans (congrArg Except.ok h2.symm), h2⟩

theorem c1_witness :
    (1 : ℤ) ≤ 1
    ∧ (integrate_midpoint (fun x => x) 0 1 1
        = Except.ok ((List.range (1 : ℤ).toNat).foldl
            (fun acc (j : ℕ) => acc
              + ((0 : ℝ) + (j : ℝ) * ((1 - 0) / ((1 : ℤ) : ℝ))
                  + (1 - 0) / ((1 : ℤ) : ℝ) / 2)
                * ((1 - 0) / ((1 : ℤ) : ℝ))) 0)
      ∧ (List.range (1 : ℤ).toNat).foldl
            (fun acc (j : ℕ) => acc
              + ((0 : ℝ) + (j : ℝ) * ((1 - 0) / ((1 : ℤ) : ℝ))
                  + (1 - 0) / ((1 : ℤ) : ℝ) / 2)
                * ((1 - 0) / ((1 : ℤ) : ℝ))) 0
          = ∑ j in Finset.range (1 : ℤ).toNat,
              ((0 : ℝ) + (j : ℝ) * ((1 - 0) / ((1 : ℤ) : ℝ))
                  + (1 - 0) / ((1 : ℤ) : ℝ) / 2)
                * ((1 - 0) / ((1 : ℤ) : ℝ))) :=
  ⟨by decide, c1_midpoint_sum_ascending (fun x => x) 0 1 1 (by decide)⟩

/-- C3 (counterexample): calling `integrate_midpoint` with `n = -1 ≤ 0` does
not fail at all: `np.linspace(a, b, num=0)` succeeds with an empty array,
`dx = (b-a)/(-1)` succeeds, `range(-1)` is empty, and the call returns `0`.
This refutes the claim that every call with `n ≤ 0` fails with an
invalid-argument error. -/
theorem c3_counterexample :
    integrate_midpoint (fun x => x) (0 : ℝ) 1 (-1) = Except.ok 0 := rfl

/-- C3 (amended): for `n ≤ 0` the call never validates its argument as such;
instead, for `n ≤ -2` it fails with `ValueError` (raised inside
`np.linspace`, not an explicit argument check), for `n = 0` it fails with
`ZeroDivisionError` from `dx = (b-a)/n`, and for `n = -1` it does not fail
but returns `0`. -/
theorem c3_amended_behavior (f : ℝ → ℝ) (a b : ℝ) (n : ℤ) (h : n ≤ 0) :
    (n ≤ -2 → integrate_midpoint f a b n = Except.error PyError.valueError)
    ∧ (n = 0 → integrate_midpoint f a b n = Except.error PyError.zeroDivisionError)
    ∧ (n = -1 → integrate_midpoint f a b n = Except.ok 0) := by
  refine ⟨fun h2 => ?_, fun h0 => ?_, fun h1 => ?_⟩
  · rw [integrate_midpoint, integrate_midpointE, if_pos (by omega : n + 1 < 0)]
  · subst h0
    rfl
  · subst h1
    rfl

theorem c3_witness :
    (-1 : ℤ) ≤ 0
    ∧ integrate_midpoint (fun x => x + 1) (0 : ℝ) 1 (-1) = Except.ok 0 :=
  ⟨by decide,
    (c3_amended_behavior (fun x => x + 1) 0 1 (-1) (by decide)).2.2 rfl⟩

/-- C4: for every integrand `f`, bounds `a`, `b`, and `n ≥ 1`,
`integrate_midpoint f a b n` is the exact negation of
`integrate_midpoint f b a n`: reversing the bounds negates `Δx` and hence
the result. -/
theorem c4_reverse_negates (f : ℝ → ℝ) (a b : ℝ) (n : ℤ) (hn : 1 ≤ n) :
    integrate_midpoint f a b n
      = Except.map (fun v => -v) (integrate_midpoint f b a n) := by
  rw [integrate_midpoint_ok f a b hn, integrate_midpoint_ok f b a hn]
  simp only [Except.map]
  congr 1
  have hN : ((n.toNat : ℕ) : ℝ) = (n : ℝ) := toNat_cast_eq hn
  have hn0 : (n : ℝ) ≠ 0 := int_cast_ne_zero hn
  rw [← Finset.sum_range_reflect
    (fun j => f (a + (j : ℝ) * ((b - a) / (n : ℝ)) + (b - a) / (n : ℝ) / 2)
      * ((b - a) / (n : ℝ))) n.toNat]
  rw [← Finset.sum_neg_distrib]
  refine Finset.sum_congr rfl (fun j hj => ?_)
  have hjN := Finset.mem_range.mp hj
  have h1 : 1 ≤ n.toNat := by omega
  have h2 : j ≤ n.toNat - 1 := by omega
  have hc : ((n.toNat - 1 - j : ℕ) : ℝ) = ((n.toNat : ℕ) : ℝ) - 1 - (j : ℝ) := by
    rw [Nat.cast_sub h2, Nat.cast_sub h1, Nat.cast_one]
  have harg : a + ((n.toNat - 1 - j : ℕ) : ℝ) * ((b - a) / (n : ℝ))
        + (b - a) / (n : ℝ) / 2
      = b + (j : ℝ) * ((a - b) / (n : ℝ)) + (a - b) / (n : ℝ) / 2 := by
    rw [hc, hN]
    field_simp
    ring
  rw [harg]
  ring

theorem c4_witness :
    (1 : ℤ) ≤ 1
    ∧ integrate_midpoint (fun x => x * x) (0 : ℝ) 2 1
        = Except.map (fun v => -v) (integrate_midpoint (fun x => x * x) 2 0 1) :=
  ⟨by decide, c4_reverse_negates (fun x => x * x) 0 2 1 (by decide)⟩

/-- C5: for every degree-at-most-1 integrand `f(x) = m·x + k` (constants
included, with `m = 0`), every `a`, `b` and every `n ≥ 1`, the midpoint rule
is exact: `integrate_midpoint f a b n` returns exactly
`m·(b²-a²)/2 + k·(b-a)` (in exact field arithmetic). -/
theorem c5_linear_exact (m k a b : ℝ) (n : ℤ) (hn : 1 ≤ n) :
    integrate_midpoint (fun x => m * x + k) a b n
      = Except.ok (m * (b ^ 2 - a ^ 2) / 2 + k * (b - a)) := by
  rw [integrate_midpoint_ok (fun x => m * x + k) a b hn]
  congr 1
  have hN : ((n.toNat : ℕ) : ℝ) = (n : ℝ) := toNat_cast_eq hn
  have hn0 : (n : ℝ) ≠ 0 := int_cast_ne_zero hn
  have hterm : ∀ j ∈ Finset.range n.toNat,
      (m * (a + (j : ℝ) * ((b - a) / (n : ℝ)) + (b - a) / (n : ℝ) / 2) + k)
          * ((b - a) / (n : ℝ))
        = (m * a + m * ((b - a) / (n : ℝ)) / 2 + k) * ((b - a) / (n : ℝ))
          + (j : ℝ) * (m * ((b - a) / (n : ℝ)) * ((b - a) / (n : ℝ))) := by
    intro j hj
    ring
  rw [Finset.sum_congr rfl hterm, Finset.sum_add_distrib, Finset.sum_const,
    Finset.card_range, ← Finset.sum_mul, nsmul_eq_mul]
  have hsum : (∑ j in Finset.range n.toNat, (j : ℝ))
      = (((n.toNat : ℕ) : ℝ) ^ 2 - ((n.toNat : ℕ) : ℝ)) / 2 := by
    have := sumRangeIdTwo (K := ℝ) n.toNat
    linarith
  rw [hsum, hN]
  field_simp
  ring

theorem c5_witness :
    (1 : ℤ) ≤ 2
    ∧ integrate_midpoint (fun x => 3 * x + 5) (0 : ℝ) 4 2
        = Except.ok (3 * ((4 : ℝ) ^ 2 - 0 ^ 2) / 2 + 5 * (4 - 0)) :=
  ⟨by decide, c5_linear_exact 3 5 0 4 2 (by decide)⟩

/-- C6: for every integrand `f` and bounds `a`, `b`,
`integrate_midpoint f a b 1` is exactly `f((a+b)/2)·(b-a)`: one evaluation
at the interval midpoint times the interval width. -/
theorem c6_single_interval (f : ℝ → ℝ) (a b : ℝ) :
    integrate_midpoint f a b 1 = Except.ok (f ((a + b) / 2) * (b - a)) := by
  rw [integrate_midpoint_ok f a b le_rfl]
  have ht : (1 : ℤ).toNat = 1 := rfl
  rw [ht, Finset.sum_range_one]
  have harg : a + ((0 : ℕ) : ℝ) * ((b - a) / ((1 : ℤ) : ℝ))
      + (b - a) / ((1 : ℤ) : ℝ) / 2 = (a + b) / 2 := by
    push_cast
    ring
  rw [harg]
  norm_num

/-- C7: for every integrand `f` and every `n ≥ 1`, the zero-width call
`integrate_midpoint f a a n` returns `0`: `Δx = 0`, so every accumulated
term is `f(xmid)·0 = 0`. -/
theorem c7_zero_width (f : ℝ → ℝ) (a : ℝ) (n : ℤ) (hn : 1 ≤ n) :
    integrate_midpoint f a a n = Except.ok 0 := by
  rw [integrate_midpoint_ok f a a hn]
  congr 1
  simp [sub_self]

theorem c7_witness :
    (1 : ℤ) ≤ 3
    ∧ integrate_midpoint (fun x => x * x + 1) (5 : ℝ) 5 3 = Except.ok 0 :=
  ⟨by decide, c7_zero_width (fun x => x * x + 1) 5 3 (by decide)⟩

/-- C9: for every `a`, `b`, `n ≥ 1`, if the integrand raises exception `e` at
the first evaluated midpoint it fails on (index `j`, having succeeded on all
earlier midpoints), `integrate_midpoint` propagates that exception unchanged
to the caller and returns no partial sum. -/
theorem c9_integrand_error_propagates {ε : Type} (f : ℝ → Except ε ℝ)
    (a b : ℝ) (n : ℤ) (hn : 1 ≤ n) (j : ℕ) (hj : j < n.toNat) (e : ε)
    (herr : f (a + (j : ℝ) * ((b - a) / (n : ℝ)) + (b - a) / (n : ℝ) / 2)
              = Except.error e)
    (hok : ∀ i : ℕ, i < j →
      ∃ v, f (a + (i : ℝ) * ((b - a) / (n : ℝ)) + (b - a) / (n : ℝ) / 2)
             = Except.ok v) :
    integrate_midpointE f a b n = Except.error (PyError.integrandError e) :=
  integrate_midpointE_err f a b hn hj herr hok

theorem c9_witness :
    (1 : ℤ) ≤ 1 ∧ (0 : ℕ) < (1 : ℤ).toNat
    ∧ integrate_midpointE (fun _ => (Except.error 7 : Except ℕ ℝ)) 0 1 1
        = Except.error (PyError.integrandError 7) :=
  ⟨by decide, by decide,
    c9_integrand_error_propagates (fun _ => Except.error 7) 0 1 1 (by decide)
      0 (by decide) 7 rfl (fun i hi => absurd hi (Nat.not_lt_zero i))⟩

/-- C10: for every `n ≥ 1` and `a ≠ b`, the loop evaluates the integrand at
exactly `n` midpoints (the trace of evaluation points has length `n`), every
evaluation point lies strictly between `min a b` and `max a b` (the endpoints
are never evaluated), every index `j`, `j+1` used by the loop is within the
bounds of the `(n+1)`-point grid, and the call returns the sum of
`f(p)·Δx` over exactly that evaluation trace. -/
theorem c10_safety (f : ℝ → ℝ) (a b : ℝ) (n : ℤ) (hn : 1 ≤ n) (hab : a ≠ b) :
    ((evalPoints (K := ℝ) a b n).length : ℤ) = n
    ∧ (∀ p ∈ evalPoints (K := ℝ) a b n, min a b < p ∧ p < max a b)
    ∧ (∀ j : ℕ, j < n.toNat → j + 1 < (linspace (K := ℝ) a b (n + 1).toNat).length)
    ∧ integrate_midpoint f a b n
        = Except.ok (((evalPoints a b n).map
            (fun p => f p * ((b - a) / (n : ℝ)))).sum) := by
  have hN : ((n.toNat : ℕ) : ℝ) = (n : ℝ) := toNat_cast_eq hn
  have hnpos : (0 : ℝ) < (n : ℝ) := by exact_mod_cast (show (0 : ℤ) < n by omega)
  refine ⟨?_, ?_, ?_, ?_⟩
  · have hlen : (evalPoints (K := ℝ) a b n).length = n.toNat := by
      unfold evalPoints midTrace
      rw [List.length_map, List.length_range]
    rw [hlen]
    omega
  · intro p hp
    unfold evalPoints midTrace at hp
    obtain ⟨j, hjmem, rfl⟩ := List.mem_map.mp hp
    have hjN := List.mem_range.mp hjmem
    rw [linspace_mid a b hn hjN]
    have hj1 : (j : ℝ) + 1 ≤ (n : ℝ) := by
      exact_mod_cast (show (j : ℤ) + 1 ≤ n by omega)
    have hj0 : (0 : ℝ) ≤ (j : ℝ) := Nat.cast_nonneg j
    have hndx : (n : ℝ) * ((b - a) / (n : ℝ)) = b - a := by
      field_simp
    rcases lt_or_gt_of_ne hab with hlt | hgt
    · rw [min_eq_left hlt.le, max_eq_right hlt.le]
      have hdx : 0 < (b - a) / (n : ℝ) := div_pos (by linarith) hnpos
      constructor
      · nlinarith [mul_nonneg hj0 hdx.le]
      · have hmul := mul_le_mul_of_nonneg_right hj1 hdx.le
        nlinarith [hmul, hndx, hdx]
    · rw [min_eq_right hgt.le, max_eq_left hgt.le]
      have hdx : (b - a) / (n : ℝ) < 0 := div_neg_of_neg_of_pos (by linarith) hnpos
      constructor
      · have hmul := mul_le_mul_of_nonpos_right hj1 hdx.le
        nlinarith [hmul, hndx, hdx]
      · have hjdx := mul_nonpos_of_nonneg_of_nonpos hj0 hdx.le
        nlinarith [hjdx, hdx]
  · intro j hj
    rw [linspace_length]
    omega
  · have h0 : ¬n + 1 < 0 := by omega
    have h1 : n ≠ 0 := by omega
    have hb : ∀ j ∈ List.range n.toNat,
        j + 1 < (linspace (K := ℝ) a b (n + 1).toNat).length := by
      intro j hj
      rw [linspace_length]
      have := List.mem_range.mp hj
      omega
    rw [integrate_midpoint, integrate_midpointE]
    simp only [if_neg h0, if_neg h1]
    rw [midLoop_pure_ok f _ _ _ 0 hb, zero_add]
    rfl

theorem c10_witness :
    (1 : ℤ) ≤ 1 ∧ (0 : ℝ) ≠ 1
    ∧ (((evalPoints (K := ℝ) 0 1 1).length : ℤ) = 1
      ∧ (∀ p ∈ evalPoints (K := ℝ) 0 1 1, min (0 : ℝ) 1 < p ∧ p < max (0 : ℝ) 1)
      ∧ (∀ j : ℕ, j < (1 : ℤ).toNat
          → j + 1 < (linspace (K := ℝ) 0 1 ((1 : ℤ) + 1).toNat).length)
      ∧ integrate_midpoint (fun x => x) (0 : ℝ) 1 1
          = Except.ok (((evalPoints (K := ℝ) 0 1 1).map
              (fun p => p * ((1 - 0) / ((1 : ℤ) : ℝ)))).sum)) :=
  ⟨by decide, zero_ne_one,
    c10_safety (fun x => x) 0 1 1 (by decide) zero_ne_one⟩

/-! ### The sine test case: closed form and numeric bounds -/

/-- Sum of sines in odd arithmetic progression:
`2 sin θ · Σ_{j<m} sin((2j+1)θ) = 1 - cos(2mθ)` (telescoping product-to-sum). -/
theorem sinProgSum (θ : ℝ) :
    ∀ m : ℕ, 2 * Real.sin θ
        * ∑ j in Finset.range m, Real.sin ((2 * (j : ℝ) + 1) * θ)
      = 1 - Real.cos (2 * (m : ℝ) * θ)
  | 0 => by simp
  | m + 1 => by
    rw [Finset.sum_range_succ, mul_add, sinProgSum θ m]
    have h := Real.cos_sub_cos (2 * (m : ℝ) * θ) (2 * ((m : ℝ) + 1) * θ)
    have h2 : (2 * (m : ℝ) * θ + 2 * ((m : ℝ) + 1) * θ) / 2
        = (2 * (m : ℝ) + 1) * θ := by ring
    have h3 : (2 * (m : ℝ) * θ - 2 * ((m : ℝ) + 1) * θ) / 2 = -θ := by ring
    rw [h2, h3, Real.sin_neg] at h
    push_cast
    linear_combination -h

/-- At `θ = π/2000` with `m = 1000` the progression sum telescopes to
`1 / sin(π/2000)` (since `cos π = -1`). -/
theorem sinSumEval :
    ∑ j in Finset.range 1000, Real.sin ((2 * (j : ℝ) + 1) * (Real.pi / 2000))
      = 1 / Real.sin (Real.pi / 2000) := by
  have hs : 0 < Real.sin (Real.pi / 2000) :=
    Real.sin_pos_of_pos_of_lt_pi (by positivity) (by linarith [Real.pi_pos])
  have h := sinProgSum (Real.pi / 2000) 1000
  have h2 : 2 * ((1000 : ℕ) : ℝ) * (Real.pi / 2000) = Real.pi := by
    push_cast
    ring
  rw [h2, Real.cos_pi] at h
  have h3 : 2 * Real.sin (Real.pi / 2000)
      * ∑ j in Finset.range 1000,
          Real.sin ((2 * (j : ℝ) + 1) * (Real.pi / 2000)) = 2 := by
    rw [h]
    ring
  rw [eq_div_iff hs.ne']
  linarith [h3]

/-- Closed form for the notebook's test call: the midpoint sum for `sin` on
`[0, π]` with 1000 sub-intervals is exactly `2·(π/2000)/sin(π/2000)`. -/
theorem integrate_sin_closed_form :
    integrate_midpoint Real.sin 0 Real.pi 1000
      = Except.ok (2 * (Real.pi / 2000) / Real.sin (Real.pi / 2000)) := by
  rw [integrate_midpoint_ok Real.sin 0 Real.pi (by norm_num : (1 : ℤ) ≤ 1000)]
  refine congrArg Except.ok ?_
  have ht : (1000 : ℤ).toNat = 1000 := rfl
  have hc : ((1000 : ℤ) : ℝ) = 1000 := by norm_num
  rw [ht, hc]
  simp only [sub_zero]
  have hterm : ∀ j ∈ Finset.range 1000,
      Real.sin (0 + (j : ℝ) * (Real.pi / 1000) + Real.pi / 1000 / 2)
          * (Real.pi / 1000)
        = Real.sin ((2 * (j : ℝ) + 1) * (Real.pi / 2000)) * (Real.pi / 1000) := by
    intro j hj
    have harg : (0 : ℝ) + (j : ℝ) * (Real.pi / 1000) + Real.pi / 1000 / 2
        = (2 * (j : ℝ) + 1) * (Real.pi / 2000) := by ring
    rw [harg]
  rw [Finset.sum_congr rfl hterm, ← Finset.sum_mul, sinSumEval]
  ring

/-- C8: `integrate_midpoint sin 0 π 1000` returns a value within `1e-9` of
the reported `2.0000008224672694`, and its absolute error from the exact
integral `2` is below `1e-6`. -/
theorem c8_sin_0_pi_1000 :
    ∃ I : ℝ, integrate_midpoint Real.sin 0 Real.pi 1000 = Except.ok I
      ∧ |I - 2| < 0.000001
      ∧ |I - 2.0000008224672694| < 0.000000001 := by
  refine ⟨2 * (Real.pi / 2000) / Real.sin (Real.pi / 2000),
    integrate_sin_closed_form, ?_⟩
  set u := Real.pi / 2000 with hu
  have hl : 3.141592 / 2000 < u := by
    rw [hu]
    linarith [Real.pi_gt_d6]
  have hh : u < 3.141593 / 2000 := by
    rw [hu]
    linarith [Real.pi_lt_d6]
  have hlpos : (0 : ℝ) < 3.141592 / 2000 := by norm_num
  have hupos : 0 < u := by linarith
  have habs : |u| ≤ 1 := by
    rw [abs_of_pos hupos]
    have h1 : (3.141593 : ℝ) / 2000 ≤ 1 := by norm_num
    linarith
  have hsb := Real.sin_bound habs
  rw [abs_of_pos hupos] at hsb
  have hsb2 := abs_le.mp hsb
  have hspos : 0 < Real.sin u :=
    Real.sin_pos_of_pos_of_lt_pi hupos (by rw [hu]; linarith [Real.pi_pos])
  set s := Real.sin u with hs
  have hslo : u - u ^ 3 / 6 - u ^ 4 * (5 / 96) ≤ s := by linarith [hsb2.1]
  have hshi : s ≤ u - u ^ 3 / 6 + u ^ 4 * (5 / 96) := by linarith [hsb2.2]
  have hpow3h : u ^ 3 < (3.141593 / 2000 : ℝ) ^ 3 :=
    pow_lt_pow_left₀ hh hupos.le (by norm_num)
  have hpow3l : (3.141592 / 2000 : ℝ) ^ 3 < u ^ 3 :=
    pow_lt_pow_left₀ hl hlpos.le (by norm_num)
  have hpow4h : u ^ 4 < (3.141593 / 2000 : ℝ) ^ 4 :=
    pow_lt_pow_left₀ hh hupos.le (by norm_num)
  have hup : 2 * u / s < 2.0000008224672694 + 0.000000001 := by
    rw [div_lt_iff₀ hspos]
    linarith [hslo, hl, hpow3h, hpow4h]
  have hdn : 2.0000008224672694 - 0.000000001 < 2 * u / s := by
    rw [lt_div_iff₀ hspos]
    linarith [hshi, hh, hpow3l, hpow4h]
  constructor
  · rw [abs_lt]
    constructor
    · linarith [hdn]
    · linarith [hup]
  · rw [abs_lt]
    constructor
    · linarith [hdn]
    · linarith [hup]

end Phys4247
